import Mathlib

/-!
Shallow embedding of `pdf_table_extractor_improved.py` (class `PDFTableExtractor`
plus the batch driver `process_pdf_files`).

Strings are modelled as `List Char` (Python `str` is a sequence of code points).
Each Python function of the table-extraction pipeline is translated into a
Lean definition below, keeping the source's names where Lean allows it:
  * `clean_text`               (source lines 14-20)
  * `extract_text_with_positions` structuring of one page (lines 28-53),
    as `structurePage` / `extract_pages`
  * `detect_table_boundaries`  (lines 60-93)
  * `refine_tables`            (lines 95-121)
  * `clean_sheet_name` / sheet naming in `to_excel` (lines 144-171);
    NOTE: line 147 of the source (`invalid_chars = r'[]:*?/\'`) is an
    unterminated raw-string literal, a Python SyntaxError; the definition
    here models the evident intent, the character set `[]:*?/\`
  * the export / batch counting logic of `to_excel` and `process_pdf_files`
    (lines 153-239)
-/

namespace PdfExtract

/-- Python whitespace on code points `≤ 0x7F`: the characters for which
`str.isspace()` holds and which `str.strip()` removes, and exactly the ASCII
characters matched by the regex class `\s`.  (`clean_text` only ever strips
strings whose characters are all `≤ 0x7F`, so this suffices to model both
`strip` and `re.split(r'\s{2,}', …)` faithfully.) -/
def isPySpace (c : Char) : Bool :=
  decide (c.toNat = 32 ∨ (9 ≤ c.toNat ∧ c.toNat ≤ 13) ∨ (28 ≤ c.toNat ∧ c.toNat ≤ 31))

/-- A character outside the 7-bit range, i.e. matched by `[^\x00-\x7F]`. -/
def isHigh (c : Char) : Bool := decide (0x7F < c.toNat)

/-- `re.sub(r'[^\x00-\x7F]+', ' ', …)`: each maximal run of high characters is
replaced by a single space.  The Boolean flag records whether the previous
character belonged to a (already replaced) high run. -/
def subHighAux : Bool → List Char → List Char
  | _, [] => []
  | inRun, c :: cs =>
    if isHigh c then
      if inRun then subHighAux true cs else ' ' :: subHighAux true cs
    else
      c :: subHighAux false cs

def subHigh (l : List Char) : List Char := subHighAux false l

/-- Python `str.replace(a, b)` for single characters. -/
def replChar (a b : Char) (l : List Char) : List Char :=
  l.map fun c => if c = a then b else c

/-- Python `str.strip()`: drop leading and trailing whitespace. -/
def pyStrip (l : List Char) : List Char :=
  ((l.dropWhile isPySpace).reverse.dropWhile isPySpace).reverse

/-- The character substitutions of `clean_text` before the final `strip`:
`re.sub(r'[^\x00-\x7F]+', ' ', text)` followed by
`.replace('\x00', ' ').replace('\xff', ' ')`. -/
def cleanCore (l : List Char) : List Char :=
  replChar '\xFF' ' ' (replChar '\x00' ' ' (subHigh l))

/-- Source lines 14-20:
```
text = re.sub(r'[^\x00-\x7F]+', ' ', text)
text = text.replace('\x00', ' ').replace('\xff', ' ')
return text.strip()
``` -/
def clean_text (l : List Char) : List Char :=
  pyStrip (cleanCore l)

/-- Single-pass description of the substitution phase of `clean_text`, written
from the (amended) specification text: each maximal run of characters above
`0x7F` becomes one space, a NUL becomes a space, every other character is kept. -/
def specCore : List Char → List Char
  | [] => []
  | c :: cs =>
    if isHigh c then ' ' :: specCore (cs.dropWhile isHigh)
    else (if c = '\x00' then ' ' else c) :: specCore cs
termination_by l => l.length
decreasing_by
  · exact Nat.lt_succ_of_le ((List.dropWhile_suffix isHigh).sublist.length_le)
  · exact Nat.lt_succ_self _

/-! ### Line structurer (`extract_text_with_positions`, source lines 22-58) -/

/-- Python `text.split('\n')`: `''.split('\n') = ['']`, separators are single
newline characters. -/
def splitNl : List Char → List (List Char)
  | [] => [[]]
  | c :: cs =>
    match splitNl cs with
    | [] => [[]]
    | h :: t => if c = '\n' then [] :: h :: t else (c :: h) :: t

/-- `re.split(r'\s{2,}', line)`: split on each maximal run of two or more
whitespace characters.  A single whitespace character is not a separator and
stays inside its token.  `pend` collects the whitespace characters of the run
currently being scanned, `acc` the current token (reversed); whether a run is
a separator is decided when the run ends (at a non-space or at the end). -/
def reSplit2Go : List Char → List Char → List Char → List (List Char)
  | [], pend, acc =>
      if 2 ≤ pend.length then [acc.reverse, []]
      else [(pend.reverse ++ acc).reverse]
  | c :: cs, pend, acc =>
      if isPySpace c then reSplit2Go cs (pend ++ [c]) acc
      else if 2 ≤ pend.length then acc.reverse :: reSplit2Go cs [] [c]
      else reSplit2Go cs [] (c :: (pend.reverse ++ acc))

def reSplit2 (l : List Char) : List (List Char) := reSplit2Go l [] []

/-- One parsed line (the dict built at source lines 46-51). -/
structure StructuredLine where
  text : List Char
  parts : List (List Char)
  part_count : Nat
  page : Nat
deriving DecidableEq

/-- The per-line body of the loop at source lines 40-51: clean the line, split
it on 2+-whitespace runs, and (since `re.split` always returns a non-empty
list, making `if parts:` always true) emit one `StructuredLine`. -/
def structureLine (pageNum : Nat) (line : List Char) : List StructuredLine :=
  let cleaned := clean_text line
  let parts := reSplit2 cleaned
  if parts.isEmpty then []
  else [⟨cleaned, parts, parts.length, pageNum⟩]

/-- The per-page body of the loop at source lines 28-53: skip a page whose raw
text is empty (`if not text: continue`), otherwise clean the page text, split
it into lines and structure each line. -/
def structurePage (pageNum : Nat) (rawText : List Char) : List (List StructuredLine) :=
  if rawText.isEmpty then []
  else [(splitNl (clean_text rawText)).flatMap (structureLine pageNum)]

/-- `extract_text_with_positions`, modulo the external PDF reader: the input is
the list of raw per-page texts returned by `page.extract_text()` (page numbers
are 1-based, `page_num + 1`). -/
def extract_text_with_positions (raws : List (List Char)) : List (List StructuredLine) :=
  (raws.enum.map fun p => structurePage (p.1 + 1) p.2).flatten

/-! ### Table boundary detector (`detect_table_boundaries`, source lines 60-93) -/

/-- The dict built at source lines 72-76. -/
structure CandidateTable where
  page : Nat
  header : List (List Char)
  rows : List (List (List Char))
deriving DecidableEq

/-- Detector state: tables emitted so far, and `current_table` (an open table
or `none`). -/
abbrev DetectState := List CandidateTable × Option CandidateTable

/-- The body of the inner loop of `detect_table_boundaries` (source lines
66-86), processing one `StructuredLine`:

* `part_count > 1`, no open table: start a new table with the cleaned parts
  as header and no rows (lines 69-76);
* `part_count > 1`, open table with matching header length: append the cleaned
  parts as a row (lines 78-81);
* `part_count > 1`, open table with a different header length: nothing happens
  (the `if` at line 79 has no else branch) — the line is ignored;
* `part_count ≤ 1`: close the open table, emitting it only when it has at
  least one row, and reset `current_table` to `None` (lines 82-86). -/
def processLine (st : DetectState) (line : StructuredLine) : DetectState :=
  let (tables, cur) := st
  if line.part_count > 1 then
    match cur with
    | none => (tables, some ⟨line.page, line.parts.map clean_text, []⟩)
    | some t =>
        if line.part_count = t.header.length then
          (tables, some { t with rows := t.rows ++ [line.parts.map clean_text] })
        else
          (tables, some t)
  else
    match cur with
    | some t => (if t.rows.length ≥ 1 then tables ++ [t] else tables, none)
    | none => (tables, none)

/-- The end-of-page step at source lines 88-91.  Note that
`current_table = None` is inside the `if`, so an open table with no rows is
*not* reset and survives into the next page:
```
if current_table and len(current_table['rows']) >= 1:
    tables.append(current_table)
    current_table = None
``` -/
def endPage (st : DetectState) : DetectState :=
  let (tables, cur) := st
  match cur with
  | some t => if t.rows.length ≥ 1 then (tables ++ [t], none) else (tables, some t)
  | none => (tables, none)

/-- `detect_table_boundaries`: fold the line step over every page, running the
end-of-page step after each page; return the emitted tables. -/
def detect_table_boundaries (pages : List (List StructuredLine)) : List CandidateTable :=
  (pages.foldl (fun st page => endPage (page.foldl processLine st)) ([], none)).1

/-! ### Table refiner (`refine_tables`, source lines 95-121) -/

/-- A cell of the intermediate DataFrame: `none` models `NaN`. -/
abbrev Cell := Option (List Char)

/-- A refined table: page number plus the surviving named columns and rows
of the cleaned DataFrame (rows are kept row-major; cells are `Cell`). -/
structure RefinedTable where
  page : Nat
  header : List (List Char)
  rows : List (List Cell)
deriving DecidableEq

/-- Cell lookup with the `NaN` default, `row[j]` of a DataFrame row. -/
def cellAt (r : List Cell) (j : Nat) : Cell := (r.get? j).getD none

/-- `df.replace('', np.nan)` on one row: empty-string cells become missing. -/
def markRow (r : List (List Char)) : List Cell :=
  r.map fun c => if c.isEmpty then none else some c

/-- The rows surviving `df.replace('', np.nan)` followed by
`df.dropna(how='all')`: rows having at least one present cell. -/
def keptRows (t : CandidateTable) : List (List Cell) :=
  (t.rows.map markRow).filter (fun r => r.any Option.isSome)

/-- Column `j` survives `df.dropna(axis=1, how='all')` iff some remaining row
has a present cell there. -/
def keepCol (t : CandidateTable) (j : Nat) : Bool :=
  (keptRows t).any fun r => (cellAt r j).isSome

/-- The (0-based, in increasing order) column positions surviving
`df.dropna(axis=1, how='all')`. -/
def keptCols (t : CandidateTable) : List Nat :=
  (List.range t.header.length).filter (keepCol t)

/-- The surviving column names. -/
def refinedHeader (t : CandidateTable) : List (List Char) :=
  (keptCols t).map fun j => (t.header.get? j).getD []

/-- The surviving rows restricted to the surviving columns, with every present
cell cleaned by `df.applymap(lambda x: clean_text(str(x)) if ...)`. -/
def refinedRows (t : CandidateTable) : List (List Cell) :=
  (keptRows t).map fun r => (keptCols t).map fun j => Option.map clean_text (cellAt r j)

/-- Refinement of one candidate table (the loop body at source lines 99-119):

* `pd.DataFrame(rows, columns=header)` raises when a row's width differs from
  the header's width; the `except` clause then skips the table (`none`);
* `df.replace('', np.nan)` marks empty-string cells as missing;
* `df.dropna(how='all')` keeps the rows having at least one present cell;
* `df.dropna(axis=1, how='all')` keeps the columns (in order) having at least
  one present cell among the remaining rows;
* `df.applymap(...)` cleans every remaining string cell via `clean_text`;
* the table is accepted only if the frame is non-empty and has at least two
  columns (`if not df.empty and len(df.columns) > 1`). -/
def refineOne (t : CandidateTable) : Option RefinedTable :=
  if t.rows.all (fun r => r.length = t.header.length) then
    if (keptRows t).isEmpty ∨ (refinedHeader t).length ≤ 1 then none
    else some ⟨t.page, refinedHeader t, refinedRows t⟩
  else none

def refine_tables (ts : List CandidateTable) : List RefinedTable :=
  ts.filterMap refineOne

/-! ### Sheet naming and export (`clean_sheet_name`, `to_excel`,
`process_pdf_files`, source lines 144-239) -/

/-- The characters removed by `clean_sheet_name`.  Source line 147 writes
`invalid_chars = r'[]:*?/\'`, which is an unterminated raw-string literal
(a Python `SyntaxError`); the evident intent, matching the spec, is the
character set `[]:*?/\`. -/
def invalidChars : List Char := ['[', ']', ':', '*', '?', '/', '\\']

/-- `clean_sheet_name` (source lines 144-151, with line 147 read as intended):
remove every invalid character, then truncate to 31 characters. -/
def clean_sheet_name (name : List Char) : List Char :=
  (name.filter (fun c => !invalidChars.contains c)).take 31

/-- Decimal digits of a natural number, as Python `str(n)` / f-string
interpolation renders it. -/
def natDigits (n : Nat) : List Char := (Nat.repr n).toList

/-- The sheet name chosen in `to_excel` for the table of 1-based index `i1` on
page `page` (source lines 166-171): sanitize `"Page_{page}_Table_{i1}"`, and
fall back to `"Table_{i1}"` when the sanitized name is empty or whitespace-only
(`if not sheet_name.strip()`). -/
def sheetNameFor (page i1 : Nat) : List Char :=
  let base := "Page_".toList ++ natDigits page ++ "_Table_".toList ++ natDigits i1
  let s := clean_sheet_name base
  if s.all isPySpace then "Table_".toList ++ natDigits i1 else s

/-- The workbook-level control flow of `to_excel` (source lines 153-209),
abstracting the external spreadsheet library: with no tables it prints a
diagnostic and returns `False` before any file is created (lines 155-157);
otherwise a file is produced exactly when `wb.save` succeeds, which is the
returned status (`saveOk` models the external save outcome).  The first
component is the produced file (`none` = no file). -/
def to_excel (tables : List RefinedTable) (saveOk : Bool) : Option (List RefinedTable) × Bool :=
  if tables.isEmpty then (none, false)
  else if saveOk then (some tables, true) else (none, false)

/-- The counting logic of the batch driver `process_pdf_files` (source lines
220-239): each document is the pair of its refined tables and its external
save outcome; `processed_files` is incremented only when the document has
tables and `to_excel` returns `True` (lines 232-235). -/
def process_pdf_files (docs : List (List RefinedTable × Bool)) : Nat :=
  docs.foldl
    (fun acc d => if !d.1.isEmpty then (if (to_excel d.1 d.2).2 then acc + 1 else acc) else acc)
    0

/-! ### Concrete inputs used by witnesses and counterexamples -/

/-- A two-part line as the structurer would produce it. -/
def mkLine (pageNum : Nat) (parts : List String) : StructuredLine :=
  let ps := parts.map String.toList
  ⟨(String.intercalate "  " parts).toList, ps, ps.length, pageNum⟩

def demoHeaderLine : StructuredLine := mkLine 1 ["Name", "Age"]

def demoRowLine : StructuredLine := mkLine 1 ["Alice", "30"]

def demoWideLine : StructuredLine := mkLine 1 ["a", "b", "c"]

def demoProseLine : StructuredLine := mkLine 2 ["just prose"]

def demoOpenTable : CandidateTable :=
  ⟨1, ["Name".toList, "Age".toList], [["Alice".toList, "30".toList]]⟩

def demoHeaderOnly : CandidateTable := ⟨1, ["Name".toList, "Age".toList], []⟩

/-- A two-page input for the detector: a header-only candidate open at the end
of page 1, a matching row and a closing prose line on page 2. -/
def demoPages : List (List StructuredLine) :=
  [[mkLine 1 ["H1", "H2"]], [mkLine 2 ["v1", "v2"], mkLine 2 ["prose"]]]

/-! ### Invariants stated over the embedded detector -/

/-- Every row of the candidate is as wide as its header. -/
def rowsOK (t : CandidateTable) : Prop := ∀ r ∈ t.rows, r.length = t.header.length

/-- An emitted candidate: rectangular and with at least one row. -/
def tableOK (t : CandidateTable) : Prop := rowsOK t ∧ t.rows ≠ []

/-- Detector-state invariant: all emitted tables are `tableOK`, and any open
table is rectangular. -/
def stateOK (st : DetectState) : Prop :=
  (∀ t ∈ st.1, tableOK t) ∧ ∀ t, st.2 = some t → rowsOK t

end PdfExtract

namespace PdfExtract

/-! ### Generic facts about `dropWhile` and `pyStrip` -/

theorem head?_dropWhile_false {α : Type} (p : α → Bool) :
    ∀ (l : List α) (c : α), (l.dropWhile p).head? = some c → p c = false := by
  intro l
  induction l with
  | nil => intro c h; simp [List.dropWhile] at h
  | cons a as ih =>
      intro c h
      by_cases hp : p a
      · rw [List.dropWhile_cons_of_pos hp] at h; exact ih c h
      · rw [List.dropWhile_cons_of_neg hp] at h
        simp at h
        rw [← h]
        exact Bool.of_not_eq_true hp

theorem dropWhile_eq_self_of_head {α : Type} (p : α → Bool) (l : List α)
    (h : ∀ c, l.head? = some c → p c = false) : l.dropWhile p = l := by
  cases l with
  | nil => rfl
  | cons a as =>
      have := h a (by rfl)
      simp [List.dropWhile, this]

theorem mem_dropWhile {α : Type} (p : α → Bool) (l : List α) (c : α)
    (h : c ∈ l.dropWhile p) : c ∈ l :=
  (List.dropWhile_suffix p).sublist.mem h

theorem mem_pyStrip (l : List Char) (c : Char) (h : c ∈ pyStrip l) : c ∈ l := by
  unfold pyStrip at h
  rw [List.mem_reverse] at h
  have h2 := mem_dropWhile _ _ _ h
  rw [List.mem_reverse] at h2
  exact mem_dropWhile _ _ _ h2

theorem pyStrip_head (l : List Char) (c : Char)
    (h : (pyStrip l).head? = some c) : isPySpace c = false := by
  unfold pyStrip at h
  set X := (l.dropWhile isPySpace).reverse.dropWhile isPySpace with hX
  obtain ⟨t, ht⟩ := (List.dropWhile_suffix (l := (l.dropWhile isPySpace).reverse) isPySpace)
  have hdl : l.dropWhile isPySpace = X.reverse ++ t.reverse := by
    have := congrArg List.reverse ht
    simpa using this.symm
  cases hXr : X.reverse with
  | nil => rw [hXr] at h; simp at h
  | cons c0 rest =>
      rw [hXr] at h
      simp at h
      have : (l.dropWhile isPySpace).head? = some c0 := by
        rw [hdl, hXr]; rfl
      rw [← h]
      exact head?_dropWhile_false isPySpace l c0 this

theorem pyStrip_getLast (l : List Char) (c : Char)
    (h : (pyStrip l).getLast? = some c) : isPySpace c = false := by
  unfold pyStrip at h
  rw [List.getLast?_reverse] at h
  exact head?_dropWhile_false isPySpace _ c h

theorem pyStrip_idem (l : List Char) : pyStrip (pyStrip l) = pyStrip l := by
  have h1 : (pyStrip l).dropWhile isPySpace = pyStrip l :=
    dropWhile_eq_self_of_head _ _ (fun c hc => pyStrip_head l c hc)
  show ((((pyStrip l).dropWhile isPySpace).reverse.dropWhile isPySpace)).reverse = pyStrip l
  rw [h1]
  unfold pyStrip
  rw [List.reverse_reverse]
  rw [dropWhile_eq_self_of_head isPySpace _
    (fun c hc => head?_dropWhile_false isPySpace _ c hc)]

end PdfExtract

namespace PdfExtract

/-! ### Facts about the substitution phase of `clean_text` -/

theorem subHighAux_no_high :
    ∀ (l : List Char) (b : Bool) (c : Char), c ∈ subHighAux b l → isHigh c = false := by
  intro l
  induction l with
  | nil => intro b c h; simp [subHighAux] at h
  | cons a as ih =>
      intro b c h
      by_cases ha : isHigh a
      · rw [subHighAux, if_pos ha] at h
        cases b with
        | true => exact ih true c h
        | false =>
            rw [if_neg (by decide)] at h
            rcases List.mem_cons.mp h with h | h
            · rw [h]; decide
            · exact ih true c h
      · rw [subHighAux, if_neg ha] at h
        simp only [List.mem_cons] at h
        rcases h with h | h
        · rw [h]; exact Bool.of_not_eq_true ha
        · exact ih false c h

theorem subHighAux_false_eq_self :
    ∀ (l : List Char), (∀ c ∈ l, isHigh c = false) → subHighAux false l = l := by
  intro l
  induction l with
  | nil => intro _; rfl
  | cons a as ih =>
      intro h
      have ha : isHigh a = false := h a (List.mem_cons_self a as)
      rw [subHighAux, if_neg (by simp [ha])]
      rw [ih (fun c hc => h c (List.mem_cons_of_mem a hc))]

theorem mem_replChar (a b : Char) (l : List Char) (c : Char) (h : c ∈ replChar a b l) :
    c = b ∨ (c ∈ l ∧ ¬ c = a) := by
  unfold replChar at h
  rw [List.mem_map] at h
  obtain ⟨x, hx, hxc⟩ := h
  by_cases hxa : x = a
  · left; rw [← hxc, if_pos hxa]
  · right
    rw [if_neg hxa] at hxc
    rw [← hxc]
    exact ⟨hx, hxa⟩

theorem replChar_eq_self (a b : Char) (l : List Char) (h : ∀ c ∈ l, ¬ c = a) :
    replChar a b l = l := by
  unfold replChar
  induction l with
  | nil => rfl
  | cons x xs ih =>
      rw [List.map_cons, if_neg (h x (List.mem_cons_self x xs))]
      rw [ih (fun c hc => h c (List.mem_cons_of_mem x hc))]

theorem mem_cleanCore (l : List Char) (c : Char) (h : c ∈ cleanCore l) :
    isHigh c = false ∧ ¬ c = '\x00' ∧ ¬ c = '\xFF' := by
  unfold cleanCore at h
  rcases mem_replChar _ _ _ _ h with h1 | ⟨h1, hff⟩
  · rw [h1]; refine ⟨by decide, by decide, by decide⟩
  · rcases mem_replChar _ _ _ _ h1 with h2 | ⟨h2, h00⟩
    · rw [h2]; refine ⟨by decide, by decide, by decide⟩
    · exact ⟨subHighAux_no_high l false c h2, h00, hff⟩

theorem cleanCore_eq_self (l : List Char)
    (h : ∀ c ∈ l, isHigh c = false ∧ ¬ c = '\x00' ∧ ¬ c = '\xFF') :
    cleanCore l = l := by
  unfold cleanCore subHigh
  rw [subHighAux_false_eq_self l (fun c hc => (h c hc).1)]
  rw [replChar_eq_self _ _ _ (fun c hc => (h c hc).2.1)]
  rw [replChar_eq_self _ _ _ (fun c hc => (h c hc).2.2)]

theorem subHighAux_true_drop :
    ∀ (l : List Char), subHighAux true l = subHighAux false (l.dropWhile isHigh) := by
  intro l
  induction l with
  | nil => rfl
  | cons a as ih =>
      by_cases ha : isHigh a
      · rw [subHighAux, if_pos ha, if_pos (by rfl), List.dropWhile_cons_of_pos ha]
        exact ih
      · rw [subHighAux, if_neg ha, List.dropWhile_cons_of_neg ha, subHighAux, if_neg ha]

theorem cleanCore_cons_high (c : Char) (cs : List Char) (hc : isHigh c = true) :
    cleanCore (c :: cs) = ' ' :: cleanCore (cs.dropWhile isHigh) := by
  unfold cleanCore subHigh
  rw [subHighAux, if_pos hc, if_neg (by decide), subHighAux_true_drop]
  unfold replChar
  rw [List.map_cons, List.map_cons, if_neg (by decide), if_neg (by decide)]

theorem cleanCore_cons_low (c : Char) (cs : List Char) (hc : isHigh c = false) :
    cleanCore (c :: cs) = (if c = '\x00' then ' ' else c) :: cleanCore cs := by
  unfold cleanCore subHigh
  rw [subHighAux, if_neg (by simp [hc])]
  unfold replChar
  rw [List.map_cons, List.map_cons]
  congr 1
  by_cases h0 : c = '\x00'
  · subst h0; decide
  · have hff : ¬ c = '\xFF' := by
      intro hcf; rw [hcf] at hc; exact absurd hc (by decide)
    rw [if_neg h0, if_neg hff]

theorem specCore_nil : specCore [] = [] := by
  simp [specCore]

theorem specCore_cons_high (c : Char) (cs : List Char) (hc : isHigh c = true) :
    specCore (c :: cs) = ' ' :: specCore (cs.dropWhile isHigh) := by
  rw [specCore, if_pos hc]

theorem specCore_cons_low (c : Char) (cs : List Char) (hc : isHigh c = false) :
    specCore (c :: cs) = (if c = '\x00' then ' ' else c) :: specCore cs := by
  rw [specCore, if_neg (by simp [hc])]

theorem cleanCore_eq_specCore_aux :
    ∀ (n : Nat) (l : List Char), l.length ≤ n → cleanCore l = specCore l := by
  intro n
  induction n with
  | zero =>
      intro l hl
      have hnil : l = [] := List.length_eq_zero.mp (Nat.le_zero.mp hl)
      subst hnil
      rw [specCore_nil]
      rfl
  | succ n ih =>
      intro l hl
      cases l with
      | nil => rw [specCore_nil]; rfl
      | cons c cs =>
          rw [List.length_cons] at hl
          by_cases hc : isHigh c
          · rw [cleanCore_cons_high c cs hc, specCore_cons_high c cs hc]
            rw [ih _ (Nat.le_trans (List.dropWhile_suffix isHigh).sublist.length_le
              (Nat.le_of_succ_le_succ hl))]
          · have hc' : isHigh c = false := Bool.of_not_eq_true hc
            rw [cleanCore_cons_low c cs hc', specCore_cons_low c cs hc']
            rw [ih cs (Nat.le_of_succ_le_succ hl)]

theorem cleanCore_eq_specCore (l : List Char) : cleanCore l = specCore l :=
  cleanCore_eq_specCore_aux l.length l (Nat.le_refl _)

/-! ### Claim theorems: text normalizer (C4, C5, C10) -/

/-- C4, counterexample.  The claim says every character outside the
printable-ASCII range is replaced by a single space; the BEL control character
(code 7, outside the printable range and not a space) passes through
`clean_text` unchanged. -/
theorem clean_text_keeps_bel :
    clean_text ['a', Char.ofNat 7, 'b'] = ['a', Char.ofNat 7, 'b'] ∧
      (Char.ofNat 7).toNat < 0x20 ∧ ¬ Char.ofNat 7 = ' ' := by
  refine ⟨by decide, by decide, by decide⟩

/-- C4, amended: `clean_text` replaces each maximal run of characters with
code point above `0x7F` by a single space, replaces NUL by a space, keeps
every other character (low control characters included), and finally trims
leading and trailing whitespace. -/
theorem clean_text_characterisation (s : List Char) :
    clean_text s = pyStrip (specCore s) := by
  unfold clean_text
  rw [cleanCore_eq_specCore]

/-- C5: the normalizer is idempotent (totality holds by construction: it is a
total function). -/
theorem clean_text_idempotent (s : List Char) :
    clean_text (clean_text s) = clean_text s := by
  show pyStrip (cleanCore (clean_text s)) = clean_text s
  rw [cleanCore_eq_self (clean_text s)
    (fun c hc => mem_cleanCore s c (mem_pyStrip (cleanCore s) c hc))]
  show pyStrip (pyStrip (cleanCore s)) = clean_text s
  rw [pyStrip_idem]
  rfl

/-- C10: every character of the normalizer's output is 7-bit ASCII and not
NUL, and the output has no leading or trailing whitespace. -/
theorem clean_text_output_ascii (s : List Char) :
    (∀ c, c ∈ clean_text s → c.toNat ≤ 0x7F ∧ ¬ c = '\x00') ∧
    (∀ c, (clean_text s).head? = some c → isPySpace c = false) ∧
    (∀ c, (clean_text s).getLast? = some c → isPySpace c = false) := by
  refine ⟨?_, ?_, ?_⟩
  · intro c hc
    have h := mem_cleanCore s c (mem_pyStrip (cleanCore s) c hc)
    refine ⟨?_, h.2.1⟩
    have h1 : ¬ (0x7F < c.toNat) := by
      intro hlt
      have : isHigh c = true := by unfold isHigh; exact decide_eq_true hlt
      rw [this] at h
      exact absurd h.1 (by decide)
    exact Nat.le_of_not_lt h1
  · intro c hc
    exact pyStrip_head (cleanCore s) c hc
  · intro c hc
    exact pyStrip_getLast (cleanCore s) c hc

/-- C10, witness: instantiate at a concrete input containing a high character
and trailing whitespace. -/
theorem clean_text_output_ascii_witness :
    ('a'.toNat ≤ 0x7F ∧ ¬ 'a' = '\x00') ∧ isPySpace 'a' = false ∧ isPySpace 'a' = false :=
  ⟨(clean_text_output_ascii ['a', Char.ofNat 200]).1 'a' (by decide),
   (clean_text_output_ascii ['a', Char.ofNat 200]).2.1 'a' (by decide),
   (clean_text_output_ascii ['a', Char.ofNat 200]).2.2 'a' (by decide)⟩

/-! ### Claim theorems: line structurer (C2) -/

theorem reSplit2Go_ne_nil : ∀ (l pend acc : List Char), reSplit2Go l pend acc ≠ [] := by
  intro l
  induction l with
  | nil =>
      intro pend acc
      by_cases h : 2 ≤ pend.length <;> simp [reSplit2Go, h]
  | cons c cs ih =>
      intro pend acc
      by_cases h1 : isPySpace c
      · rw [reSplit2Go, if_pos h1]
        exact ih _ _
      · by_cases h2 : 2 ≤ pend.length
        · rw [reSplit2Go, if_neg h1, if_pos h2]
          simp
        · rw [reSplit2Go, if_neg h1, if_neg h2]
          exact ih _ _

/-- C2, counterexample.  The claim says a line whose cleaned text is empty is
skipped entirely; in fact `re.split` returns `['']` on an empty line, so
`if parts:` is true and the line IS emitted as a `StructuredLine` (with one
empty part).  Concretely, for the page text `"a\n\nx  y"` the blank middle
line yields an emitted `StructuredLine` with empty text. -/
theorem empty_line_is_emitted :
    (extract_text_with_positions ["a\n\nx  y".toList]).flatten.filter
      (fun sl => sl.text.isEmpty) = [⟨[], [[]], 1, 1⟩] := by
  decide

/-- C2, amended: every line — also one whose cleaned text is empty — is
emitted as exactly one `StructuredLine`; an empty-cleaned line carries the
single part `['']` and part count 1, so it can never start or extend a table,
but it does reset the detector (close any open table). -/
theorem structureLine_emits_one (pageNum : Nat) (line : List Char) :
    (structureLine pageNum line).length = 1 ∧
    ∀ sl ∈ structureLine pageNum line,
      sl.text = clean_text line ∧ sl.part_count = sl.parts.length ∧
      (clean_text line = [] →
        sl.parts = [[]] ∧ ∀ st : DetectState, (processLine st sl).2 = none) := by
  have hne : reSplit2 (clean_text line) ≠ [] := reSplit2Go_ne_nil _ [] []
  have hemp : (reSplit2 (clean_text line)).isEmpty = false := by
    cases h : reSplit2 (clean_text line) with
    | nil => exact absurd h hne
    | cons a as => rfl
  constructor
  · simp only [structureLine]
    rw [hemp]
    rfl
  · intro sl hsl
    simp only [structureLine] at hsl
    rw [hemp, if_neg (by decide)] at hsl
    simp only [List.mem_singleton] at hsl
    subst hsl
    refine ⟨rfl, rfl, ?_⟩
    intro hclean
    have hparts : reSplit2 (clean_text line) = [[]] := by
      rw [hclean]; rfl
    refine ⟨hparts, ?_⟩
    intro st
    have hpc : (reSplit2 (clean_text line)).length = 1 := by rw [hparts]; rfl
    obtain ⟨tables, cur⟩ := st
    cases cur with
    | none => simp [processLine, hpc]
    | some t => simp [processLine, hpc]

/-- C2, witness for the amended theorem: the empty raw line, processed against
an open header-only table, yields one `StructuredLine` which closes it. -/
theorem structureLine_emits_one_witness :
    (processLine ([], some demoHeaderOnly) ⟨[], [[]], 1, 1⟩).2 = none :=
  (((structureLine_emits_one 1 []).2 ⟨[], [[]], 1, 1⟩ (by decide)).2.2 (by decide)).2
    ([], some demoHeaderOnly)

/-! ### Claim theorems: boundary detector transitions (C1, C3) -/

/-- C1, counterexample.  The claim says that in `BuildingTable` a line with
part count > 1 but different from the header length closes the current table
and moves to `NoActiveTable`.  In fact the code's `if` at source line 79 has
no else branch: the line is ignored and the table stays open. -/
theorem mismatched_line_does_not_close :
    processLine ([], some demoOpenTable) demoWideLine = ([], some demoOpenTable) ∧
    ¬ (processLine ([], some demoOpenTable) demoWideLine
        = ([demoOpenTable], (none : Option CandidateTable))) := by
  refine ⟨by decide, by decide⟩

/-- C1, amended: in `BuildingTable`, a line with part count > 1 but different
from the current header's length is ignored entirely — the table is neither
closed nor extended, no new table is started, and the detector state is
unchanged. -/
theorem processLine_mismatch_ignored (tables : List CandidateTable)
    (t : CandidateTable) (line : StructuredLine)
    (h1 : line.part_count > 1) (h2 : ¬ line.part_count = t.header.length) :
    processLine (tables, some t) line = (tables, some t) := by
  simp [processLine, h1, h2]

/-- C1, witness for the amended theorem. -/
theorem processLine_mismatch_ignored_witness :
    processLine ([], some demoOpenTable) demoWideLine = ([], some demoOpenTable) :=
  processLine_mismatch_ignored [] demoOpenTable demoWideLine (by decide) (by decide)

/-- C3, counterexample.  The claim says that at the end of every page any
`BuildingTable` state is closed and reset before the next page.  In fact the
reset (`current_table = None`, source line 91) is inside the
`len(rows) >= 1` check, so a header-only table survives the page boundary:
the header from page 1 picks up its row on page 2. -/
theorem header_only_table_carries_over :
    endPage ([], some demoHeaderOnly) = ([], some demoHeaderOnly) ∧
    detect_table_boundaries demoPages =
      [⟨1, ["H1".toList, "H2".toList], [["v1".toList, "v2".toList]]⟩] := by
  refine ⟨by decide, by decide⟩

/-- C3, amended: at the end of a page an open table is emitted and the state
reset only when it has at least one row; a header-only open table is left in
place and carries over into the next page. -/
theorem endPage_closes_only_nonempty (tables : List CandidateTable) (t : CandidateTable) :
    (t.rows ≠ [] → endPage (tables, some t) = (tables ++ [t], none)) ∧
    (t.rows = [] → endPage (tables, some t) = (tables, some t)) := by
  constructor
  · intro h
    have : t.rows.length ≥ 1 := List.length_pos.mpr h
    simp [endPage, this]
  · intro h
    simp [endPage, h]

/-- C3, witness for the amended theorem: a one-row table is emitted and the
state reset; a header-only table is carried over unchanged. -/
theorem endPage_closes_only_nonempty_witness :
    endPage ([], some demoOpenTable) = ([demoOpenTable], none) ∧
    endPage ([], some demoHeaderOnly) = ([], some demoHeaderOnly) :=
  ⟨(endPage_closes_only_nonempty [] demoOpenTable).1 (by decide),
   (endPage_closes_only_nonempty [] demoHeaderOnly).2 (by decide)⟩

/-! ### Claim theorems: detector invariant (C6) -/

theorem foldl_preserve {α β : Type} (P : β → Prop) (Q : α → Prop) (f : β → α → β) :
    ∀ (l : List α) (b : β), (∀ a ∈ l, Q a) →
      (∀ b' a, Q a → P b' → P (f b' a)) → P b → P (l.foldl f b) := by
  intro l
  induction l with
  | nil => intro b _ _ hb; exact hb
  | cons a as ih =>
      intro b hq hf hb
      exact ih (f b a) (fun x hx => hq x (List.mem_cons_of_mem a hx)) hf
        (hf b a (hq a (List.mem_cons_self a as)) hb)

theorem processLine_preserves (st : DetectState) (line : StructuredLine)
    (hl : line.part_count = line.parts.length) (h : stateOK st) :
    stateOK (processLine st line) := by
  obtain ⟨tables, cur⟩ := st
  obtain ⟨h1, h2⟩ := h
  by_cases hpc : line.part_count > 1
  · cases cur with
    | none =>
        simp only [processLine, if_pos hpc]
        refine ⟨h1, ?_⟩
        intro t ht
        simp only [Option.some_inj] at ht
        subst ht
        intro r hr
        simp at hr
    | some t =>
        by_cases heq : line.part_count = t.header.length
        · simp only [processLine, if_pos hpc, if_pos heq]
          refine ⟨h1, ?_⟩
          intro t' ht'
          simp only [Option.some_inj] at ht'
          subst ht'
          intro r hr
          simp only [List.mem_append, List.mem_singleton] at hr
          rcases hr with hr | hr
          · exact h2 t rfl r hr
          · subst hr
            simp only [List.length_map]
            rw [← hl, heq]
        · simp only [processLine, if_pos hpc, if_neg heq]
          exact ⟨h1, fun t' ht' => by
            simp only [Option.some_inj] at ht'
            subst ht'
            exact h2 t rfl⟩
  · cases cur with
    | none =>
        simp only [processLine, if_neg hpc]
        exact ⟨h1, by intro t ht; cases ht⟩
    | some t =>
        simp only [processLine, if_neg hpc]
        refine ⟨?_, by intro t' ht'; cases ht'⟩
        by_cases hrows : t.rows.length ≥ 1
        · rw [if_pos hrows]
          intro t' ht'
          rcases List.mem_append.mp ht' with ht' | ht'
          · exact h1 t' ht'
          · rw [List.mem_singleton] at ht'
            subst ht'
            exact ⟨h2 t' rfl, by
              intro hnil
              rw [hnil] at hrows
              exact absurd hrows (by simp)⟩
        · rw [if_neg hrows]
          exact h1

theorem endPage_preserves (st : DetectState) (h : stateOK st) : stateOK (endPage st) := by
  obtain ⟨tables, cur⟩ := st
  obtain ⟨h1, h2⟩ := h
  cases cur with
  | none => exact ⟨h1, by intro t ht; cases ht⟩
  | some t =>
      by_cases hrows : t.rows.length ≥ 1
      · simp only [endPage, if_pos hrows]
        refine ⟨?_, by intro t' ht'; cases ht'⟩
        intro t' ht'
        rcases List.mem_append.mp ht' with ht' | ht'
        · exact h1 t' ht'
        · rw [List.mem_singleton] at ht'
          subst ht'
          exact ⟨h2 t' rfl, by
            intro hnil
            rw [hnil] at hrows
            exact absurd hrows (by simp)⟩
      · simp only [endPage, if_neg hrows]
        exact ⟨h1, fun t' ht' => by
          simp only [Option.some_inj] at ht'
          subst ht'
          exact h2 t rfl⟩

/-- C6: every candidate table emitted by the boundary detector (on structured
lines whose recorded part count is consistent, as the structurer guarantees)
is rectangular — every row's length equals the header's length — and has at
least one row; header-only candidates are never emitted. -/
theorem detect_tables_rectangular (pages : List (List StructuredLine))
    (hwf : ∀ pg ∈ pages, ∀ l ∈ pg, l.part_count = l.parts.length) :
    ∀ t ∈ detect_table_boundaries pages,
      (∀ r ∈ t.rows, r.length = t.header.length) ∧ t.rows ≠ [] := by
  have key : stateOK
      (pages.foldl (fun st page => endPage (page.foldl processLine st)) ([], none)) := by
    refine foldl_preserve stateOK (fun pg => ∀ l ∈ pg, l.part_count = l.parts.length)
      _ pages ([], none) hwf ?_ ?_
    · intro st pg hq hp
      exact endPage_preserves _
        (foldl_preserve stateOK (fun l => l.part_count = l.parts.length) processLine pg st hq
          (fun st' l hl hp' => processLine_preserves st' l hl hp') hp)
    · exact ⟨(by intro t ht; cases ht), (by intro t ht; cases ht)⟩
  exact fun t ht => key.1 t ht

/-- C6, witness: the detector invariant instantiated on the structured pages
of a small concrete document. -/
theorem detect_tables_rectangular_witness :
    (∀ r ∈ demoOpenTable.rows, r.length = demoOpenTable.header.length) ∧
      demoOpenTable.rows ≠ [] :=
  detect_tables_rectangular
    (extract_text_with_positions ["Name  Age\nAlice  30".toList])
    (by decide) demoOpenTable (by decide)

/-! ### Claim theorems: refiner invariant (C7) -/

theorem get?_map_my {α β : Type} (f : α → β) :
    ∀ (l : List α) (i : Nat), (l.map f).get? i = (l.get? i).map f := by
  intro l
  induction l with
  | nil => intro i; cases i <;> rfl
  | cons a as ih =>
      intro i
      cases i with
      | zero => rfl
      | succ n => exact ih n

theorem lt_of_get?_some {α : Type} :
    ∀ (l : List α) (i : Nat) (a : α), l.get? i = some a → i < l.length := by
  intro l
  induction l with
  | nil => intro i a h; cases i <;> cases h
  | cons x xs ih =>
      intro i a h
      cases i with
      | zero => exact Nat.succ_pos _
      | succ n => exact Nat.succ_lt_succ (ih n a h)

theorem get?_some_of_lt {α : Type} :
    ∀ (l : List α) (i : Nat), i < l.length → ∃ a, l.get? i = some a := by
  intro l
  induction l with
  | nil => intro i h; exact absurd h (by simp)
  | cons x xs ih =>
      intro i h
      cases i with
      | zero => exact ⟨x, rfl⟩
      | succ n => exact ih n (Nat.lt_of_succ_lt_succ h)

theorem keptRows_row_length (t : CandidateTable)
    (hall : t.rows.all (fun r => r.length = t.header.length) = true) :
    ∀ r ∈ keptRows t, r.length = t.header.length := by
  intro r hr
  have hr1 : r ∈ t.rows.map markRow := List.mem_of_mem_filter hr
  obtain ⟨row, hrow, hmark⟩ := List.mem_map.mp hr1
  have : row.length = t.header.length := by
    have := List.all_eq_true.mp hall row hrow
    exact of_decide_eq_true this
  rw [← hmark]
  unfold markRow
  rw [List.length_map]
  exact this

theorem refineOne_invariant (t : CandidateTable) (rt : RefinedTable)
    (h : refineOne t = some rt) :
    2 ≤ rt.header.length ∧ rt.rows ≠ [] ∧
    (∀ r ∈ rt.rows, r.any Option.isSome = true) ∧
    (∀ j, j < rt.header.length → rt.rows.any (fun r => (cellAt r j).isSome) = true) := by
  unfold refineOne at h
  by_cases hall : t.rows.all (fun r => r.length = t.header.length) = true
  · rw [if_pos hall] at h
    by_cases hcond : (keptRows t).isEmpty = true ∨ (refinedHeader t).length ≤ 1
    · rw [if_pos hcond] at h; cases h
    · rw [if_neg hcond] at h
      push_neg at hcond
      obtain ⟨hne, hcols⟩ := hcond
      have hrt : rt = ⟨t.page, refinedHeader t, refinedRows t⟩ := (Option.some_inj.mp h).symm
      subst hrt
      refine ⟨(by show 2 ≤ (refinedHeader t).length; omega), ?_, ?_, ?_⟩
      · show refinedRows t ≠ []
        unfold refinedRows
        intro hmapnil
        have : keptRows t = [] := by
          cases hkr : keptRows t with
          | nil => rfl
          | cons a as => rw [hkr] at hmapnil; cases hmapnil
        rw [this] at hne
        exact hne rfl
      · show ∀ r ∈ refinedRows t, r.any Option.isSome = true
        intro r hr
        obtain ⟨r1, hr1, hr1r⟩ := List.mem_map.mp hr
        have hr1f := hr1
        unfold keptRows at hr1f
        have hany := List.of_mem_filter hr1f
        obtain ⟨x, hx, hxsome⟩ := List.any_eq_true.mp hany
        obtain ⟨i, hi⟩ := List.get?_of_mem hx
        have hcell : cellAt r1 i = x := by unfold cellAt; rw [hi]; rfl
        have hkeep : keepCol t i = true := by
          unfold keepCol
          exact List.any_eq_true.mpr ⟨r1, hr1, by rw [hcell]; exact hxsome⟩
        have hiK : i ∈ keptCols t := by
          unfold keptCols
          refine List.mem_filter.mpr ⟨List.mem_range.mpr ?_, hkeep⟩
          have hlen := keptRows_row_length t hall r1 hr1
          have := lt_of_get?_some r1 i x hi
          omega
        obtain ⟨j, hj⟩ := List.get?_of_mem hiK
        have : r.get? j = some (Option.map clean_text (cellAt r1 i)) := by
          rw [← hr1r, get?_map_my, hj]; rfl
        refine List.any_eq_true.mpr ⟨Option.map clean_text (cellAt r1 i),
          List.get?_mem this, ?_⟩
        rw [Option.isSome_map']
        rw [hcell]
        exact hxsome
      · show ∀ j, j < (refinedHeader t).length →
          (refinedRows t).any (fun r => (cellAt r j).isSome) = true
        intro j hj
        have hjK : j < (keptCols t).length := by
          unfold refinedHeader at hj
          rw [List.length_map] at hj
          exact hj
        obtain ⟨i, hi⟩ := get?_some_of_lt (keptCols t) j hjK
        have hiK : i ∈ keptCols t := List.get?_mem hi
        have hkeep : keepCol t i = true := List.of_mem_filter hiK
        obtain ⟨r1, hr1, hr1some⟩ := List.any_eq_true.mp hkeep
        refine List.any_eq_true.mpr
          ⟨(keptCols t).map fun i => Option.map clean_text (cellAt r1 i), ?_, ?_⟩
        · unfold refinedRows
          exact List.mem_map.mpr ⟨r1, hr1, rfl⟩
        · have hc : cellAt ((keptCols t).map fun i => Option.map clean_text (cellAt r1 i)) j
              = Option.map clean_text (cellAt r1 i) := by
            unfold cellAt
            rw [get?_map_my, hi]
            rfl
          show (cellAt ((keptCols t).map fun i => Option.map clean_text (cellAt r1 i)) j).isSome
            = true
          rw [hc, Option.isSome_map']
          exact hr1some
  · rw [if_neg hall] at h; cases h

/-- C7: every table emitted by the refiner has at least 2 surviving columns
and at least one surviving row, no surviving row is entirely missing, and no
surviving column is entirely missing; candidates violating any of this are
discarded rather than emitted. -/
theorem refine_tables_invariant (ts : List CandidateTable) :
    ∀ rt ∈ refine_tables ts,
      2 ≤ rt.header.length ∧ rt.rows ≠ [] ∧
      (∀ r ∈ rt.rows, r.any Option.isSome = true) ∧
      (∀ j, j < rt.header.length → rt.rows.any (fun r => (cellAt r j).isSome) = true) := by
  intro rt hrt
  obtain ⟨t, _, heq⟩ := List.mem_filterMap.mp hrt
  exact refineOne_invariant t rt heq

/-- C7, witness: the refiner invariant instantiated on a concrete candidate
with an all-missing row and an all-missing column. -/
theorem refine_tables_invariant_witness :
    2 ≤ (⟨1, ["A".toList, "C".toList],
          [[some "x".toList, some "z".toList], [some "q".toList, some "r".toList]]⟩
            : RefinedTable).header.length :=
  (refine_tables_invariant
    [⟨1, ["A".toList, "B".toList, "C".toList],
      [["x".toList, [], "z".toList], [[], [], []], ["q".toList, [], "r".toList]]⟩]
    ⟨1, ["A".toList, "C".toList],
      [[some "x".toList, some "z".toList], [some "q".toList, some "r".toList]]⟩
    (by decide)).1

/-! ### Claim theorems: sheet naming (C8) and export counting (C9) -/

theorem clean_sheet_name_cons_P (rest : List Char) :
    clean_sheet_name ('P' :: rest) =
      'P' :: ((rest.filter fun c => !invalidChars.contains c).take 30) := by
  unfold clean_sheet_name
  rw [List.filter_cons_of_pos (by decide)]
  rfl

/-- C8: every sheet name generated for a table (with the intended
`invalid_chars` of source line 147, see `invalidChars`) has length at most 31,
contains none of the characters `[]:*?/\`, and is non-empty; the sanitized
`"Page_{page}_Table_{i}"` always keeps its leading `P`, so it is never
whitespace-only and the `"Table_{i}"` fallback is never needed for these
generated names. -/
theorem sheetNameFor_valid (page i1 : Nat) :
    (sheetNameFor page i1).length ≤ 31 ∧ sheetNameFor page i1 ≠ [] ∧
    ∀ c ∈ sheetNameFor page i1, invalidChars.contains c = false := by
  have hbase : "Page_".toList ++ natDigits page ++ "_Table_".toList ++ natDigits i1
      = 'P' :: ("age_".toList ++ natDigits page ++ "_Table_".toList ++ natDigits i1) := rfl
  have hname : sheetNameFor page i1 =
      'P' :: ((("age_".toList ++ natDigits page ++ "_Table_".toList ++ natDigits i1).filter
        fun c => !invalidChars.contains c).take 30) := by
    simp only [sheetNameFor]
    rw [hbase, clean_sheet_name_cons_P]
    rw [if_neg ?hcond]
    case hcond =>
      intro hall
      have := List.all_eq_true.mp hall 'P' (List.mem_cons_self _ _)
      exact absurd this (by decide)
  rw [hname]
  refine ⟨?_, by simp, ?_⟩
  · rw [List.length_cons]
    have := List.length_take_le 30
      (("age_".toList ++ natDigits page ++ "_Table_".toList ++ natDigits i1).filter
        fun c => !invalidChars.contains c)
    omega
  · intro c hc
    rcases List.mem_cons.mp hc with hc | hc
    · subst hc; decide
    · have hcf := List.mem_of_mem_take hc
      have hok := List.of_mem_filter hcf
      simpa using hok

/-- C8, witness: the sheet-name invariant instantiated at page 1, table 2. -/
theorem sheetNameFor_valid_witness :
    invalidChars.contains 'P' = false :=
  (sheetNameFor_valid 1 2).2.2 'P' (by decide)

/-- C8, evaluation at the failing source line's intent: the generated names on
concrete inputs, truncation included. -/
theorem sheetNameFor_examples :
    sheetNameFor 3 2 = "Page_3_Table_2".toList ∧
    (sheetNameFor 123456789012 99999999999999).length = 31 ∧
    clean_sheet_name "P[a]g:e*?/\\x".toList = "Pagex".toList := by
  refine ⟨by decide, by decide, by decide⟩

theorem process_pdf_files_foldl (docs : List (List RefinedTable × Bool)) :
    ∀ acc : Nat,
      docs.foldl
        (fun acc d =>
          if !d.1.isEmpty then (if (to_excel d.1 d.2).2 then acc + 1 else acc) else acc)
        acc
      = acc + (docs.filter fun d => (to_excel d.1 d.2).2).length := by
  induction docs with
  | nil => intro acc; simp
  | cons d ds ih =>
      intro acc
      rw [List.foldl_cons, List.filter_cons]
      by_cases h1 : d.1.isEmpty
      · have h2 : (to_excel d.1 d.2).2 = false := by
          unfold to_excel
          rw [if_pos h1]
        have hcond : (!d.1.isEmpty) = false := by rw [h1]; rfl
        rw [if_neg (by rw [hcond]; exact (by decide)), if_neg (by rw [h2]; exact (by decide))]
        exact ih acc
      · have hb : d.1.isEmpty = false := Bool.of_not_eq_true h1
        have hcond : (!d.1.isEmpty) = true := by rw [hb]; rfl
        by_cases h2 : (to_excel d.1 d.2).2
        · rw [if_pos hcond, if_pos h2, if_pos h2, ih (acc + 1), List.length_cons]
          omega
        · have h2f : (to_excel d.1 d.2).2 = false := Bool.of_not_eq_true h2
          rw [if_pos hcond, if_neg h2, if_neg h2]
          exact ih acc

/-- C9: invoked on an empty table set the exporter produces no file and
returns failure, and the batch driver's success count equals the number of
documents whose export returned success — a document is counted only when its
workbook export reports success. -/
theorem to_excel_empty_and_batch_count (docs : List (List RefinedTable × Bool)) (b : Bool) :
    to_excel [] b = (none, false) ∧
    process_pdf_files docs = (docs.filter fun d => (to_excel d.1 d.2).2).length := by
  refine ⟨rfl, ?_⟩
  unfold process_pdf_files
  rw [process_pdf_files_foldl docs 0]
  omega
